import Mathlib

/-!
Verification development for the `mdutils` repository (src/mdutils.py).

The Python module has three public operations:
  * `iterdir`    — file selection over a directory tree,
  * `format`     — a regex-substitution reformatting pipeline per file,
  * `statistics` — a single-pass character classifier plus report writer.

Everything below is a shallow embedding of that code: each definition is
transcribed from the corresponding Python construct, with comments pointing
to the source lines and explaining where regex-engine behaviour (leftmost
alternation, greedy matching with backtracking) has been unfolded into
explicit recursion.
-/

namespace MdUtils

/-! ## Character classes

Transcriptions of the character classes used by the regexes in
src/mdutils.py.  `isSpaceChar` models CPython's Unicode `\s` (equivalently
`Py_UNICODE_ISSPACE`, also used by `str.strip`): the ASCII control whitespace
characters, NEL, NBSP, and the Unicode space/line/paragraph separators. -/

def isSpaceChar (c : Char) : Bool :=
  decide ((9 ≤ c.toNat ∧ c.toNat ≤ 13) ∨ (28 ≤ c.toNat ∧ c.toNat ≤ 32) ∨
    c.toNat = 133 ∨ c.toNat = 160 ∨ c.toNat = 5760 ∨
    (8192 ≤ c.toNat ∧ c.toNat ≤ 8202) ∨ c.toNat = 8232 ∨ c.toNat = 8233 ∨
    c.toNat = 8239 ∨ c.toNat = 8287 ∨ c.toNat = 12288)

/-- `[一-鿿]`: CJK Unified Ideographs (src/mdutils.py line 131). -/
def isCJKUnified (c : Char) : Bool :=
  decide (0x4E00 ≤ c.toNat ∧ c.toNat ≤ 0x9FFF)

/-- The CJK extension alternative of the statistics regex
(src/mdutils.py line 132). -/
def isCJKExt (c : Char) : Bool :=
  decide ((0x3400 ≤ c.toNat ∧ c.toNat ≤ 0x4DBF) ∨
    (0x20000 ≤ c.toNat ∧ c.toNat ≤ 0x2A6DF) ∨
    (0x2A700 ≤ c.toNat ∧ c.toNat ≤ 0x2EBEF) ∨
    (0x30000 ≤ c.toNat ∧ c.toNat ≤ 0x3134F))

/-- `[぀-ゟ]`: Hiragana (src/mdutils.py line 133). -/
def isHiragana (c : Char) : Bool :=
  decide (0x3040 ≤ c.toNat ∧ c.toNat ≤ 0x309F)

/-- `[゠-ヿ]`: Katakana (src/mdutils.py line 134). -/
def isKatakana (c : Char) : Bool :=
  decide (0x30A0 ≤ c.toNat ∧ c.toNat ≤ 0x30FF)

/-- Models Python's Unicode `\w` (alphanumeric or underscore).  The model
covers ASCII alphanumerics, underscore, and the CJK/Hiragana/Katakana
blocks handled specially by the classifier; the theorems below depend only
on `\w` being a subclass of the non-whitespace characters, never on its
exact extension over other scripts. -/
def isWordChar (c : Char) : Bool :=
  c.isAlphanum || decide (c = '_') || isCJKUnified c || isCJKExt c ||
    isHiragana c || isKatakana c

/-! ## The statistics tokenizer

`statistics` (src/mdutils.py lines 130-142) classifies the document with a
single `re.findall` over the ordered alternation

  CJK | CJKExt | Hiragana | Katakana | \w | \S | (\s*\n)+ | \s | .

Python's regex engine tries the alternatives left to right at each scan
position.  The only multi-character alternative is `(\s*\n)+`; since `\s*`
is greedy and `\s` itself matches a newline, one iteration of the group
consumes the maximal whitespace run starting at the position, backtracking
to end exactly at the last newline inside that run (a second iteration can
never fire because no newline remains).  So a maximal whitespace run
containing a newline yields one "newline run" token up to its last newline
followed by one single-character `\s` token per leftover whitespace
character, and a whitespace run without newline yields only `\s` tokens.

`tokenizeAux` realises exactly this: it buffers the current whitespace run
in `pend` and flushes it with `flushWs` (split after the last newline) when
a non-whitespace character or the end of input is reached. -/

inductive Tok where
  | cjk (c : Char)
  | cjkExt (c : Char)
  | hira (c : Char)
  | kata (c : Char)
  | word (c : Char)
  | nonspace (c : Char)
  | nlRun (s : List Char)
  | space (c : Char)
  | other (c : Char)
deriving DecidableEq

/-- Number of linefeed characters in a fragment (`.count("\n")`). -/
def countNl (l : List Char) : Nat := l.count '\n'

/-- Classification of a single character by the ordered alternation.  The
final arm mirrors the catch-all `(.)` alternative; the `(\s*\n)+` and
`(\s)` alternatives that precede it in the source are handled at the run
level by `tokenizeAux`, which only calls `classifyChar` on characters with
`isSpaceChar c = false`, so the `.other` arm is unreachable (this is the
content of claim C10). -/
def classifyChar (c : Char) : Tok :=
  if isCJKUnified c then .cjk c
  else if isCJKExt c then .cjkExt c
  else if isHiragana c then .hira c
  else if isKatakana c then .kata c
  else if isWordChar c then .word c
  else if isSpaceChar c = false then .nonspace c
  else .other c

/-- Split a whitespace run after its last newline: `(\s*\n)+` matches the
first component and the second component is the leftover whitespace after
the run's final newline.  `none` when the run contains no newline. -/
def splitLastNl (w : List Char) : Option (List Char × List Char) :=
  if (w.reverse.dropWhile (fun c => !(c = '\n'))).length = 0 then none
  else
    some ((w.reverse.dropWhile (fun c => !(c = '\n'))).reverse,
      (w.reverse.takeWhile (fun c => !(c = '\n'))).reverse)

/-- Turn a buffered maximal whitespace run into tokens: one `(\s*\n)+`
match followed by single `\s` matches, or only `\s` matches when the run
has no newline. -/
def flushWs (pend : List Char) : List Tok :=
  match splitLastNl pend with
  | some (runPart, tl) => Tok.nlRun runPart :: tl.map Tok.space
  | none => pend.map Tok.space

/-- The scan itself; `pend` is the whitespace run buffered so far. -/
def tokenizeAux : List Char → List Char → List Tok
  | pend, [] => flushWs pend
  | pend, c :: rest =>
    if isSpaceChar c then tokenizeAux (pend ++ [c]) rest
    else flushWs pend ++ (classifyChar c :: tokenizeAux [] rest)

/-- Token stream of a document, as produced by the `re.findall` call of
`statistics` (src/mdutils.py lines 130-142). -/
def tokenize (cs : List Char) : List Tok := tokenizeAux [] cs

/-! ## The per-file tally -/

/-- The per-file tally.  The Python code uses a `Counter` with these keys
(src/mdutils.py lines 143-180); the record lists them in the order the
report prints them. -/
structure Stat where
  paragraphs : Nat
  non_blank_lines : Nat
  lines : Nat
  words : Nat
  CJK : Nat
  Hiragana : Nat
  Katakana : Nat
  punctuations : Nat
  whitespaces : Nat
  other_chars : Nat
  chars_no_spaces : Nat
  chars_with_spaces : Nat
deriving DecidableEq

def Stat.zero : Stat := ⟨0, 0, 0, 0, 0, 0, 0, 0, 0, 0, 0, 0⟩

/-- One iteration of the classification loop
(src/mdutils.py lines 143-171). -/
def tokStat (t : Tok) (s : Stat) : Stat :=
  match t with
  | .cjk _ => { s with CJK := s.CJK + 1, words := s.words + 1 }
  | .cjkExt _ => { s with CJK := s.CJK + 1, words := s.words + 1 }
  | .hira _ => { s with Hiragana := s.Hiragana + 1, words := s.words + 1 }
  | .kata _ => { s with Katakana := s.Katakana + 1, words := s.words + 1 }
  | .word _ => { s with words := s.words + 1 }
  | .nonspace _ => { s with punctuations := s.punctuations + 1 }
  | .nlRun r =>
    let lf := countNl r
    let s1 := if 1 < lf then { s with paragraphs := s.paragraphs + 1 } else s
    { s1 with non_blank_lines := s1.non_blank_lines + 1,
              lines := s1.lines + lf,
              whitespaces := s1.whitespaces + r.length }
  | .space _ => { s with whitespaces := s.whitespaces + 1 }
  | .other _ => { s with other_chars := s.other_chars + 1 }

def scanStatAux (s : Stat) : List Tok → Stat
  | [] => s
  | t :: ts => scanStatAux (tokStat t s) ts

/-- The tally accumulated by the scan loop, before the end-of-file
adjustment and the derived totals. -/
def scanStat (toks : List Tok) : Stat := scanStatAux Stat.zero toks

/-- Linefeed count of a match's `(\s*\n)` group: the whole run for a
newline-run match, and the empty string (count `0`) for every other
match. -/
def runNl (t : Tok) : Nat :=
  match t with
  | .nlRun r => countNl r
  | _ => 0

/-- `_goups[-1][7].count("\n")` (src/mdutils.py line 172), applied to the
last match.  `none` models the `IndexError` raised when the match list is
empty. -/
def lastRunNl (toks : List Tok) : Option Nat := toks.getLast?.map runNl

/-- The end-of-file adjustment (src/mdutils.py lines 172-177), driven by
the linefeed count of the last match's `(\s*\n)` group: no linefeed means
the document does not end in a newline and gains an implicit trailing
paragraph, non-blank line and line; exactly one linefeed gains a paragraph
only; two or more gain nothing. -/
def adjustEof (lf : Nat) (s : Stat) : Stat :=
  if lf = 0 then
    { s with paragraphs := s.paragraphs + 1,
             non_blank_lines := s.non_blank_lines + 1,
             lines := s.lines + 1 }
  else if lf = 1 then { s with paragraphs := s.paragraphs + 1 }
  else s

/-- The derived totals (src/mdutils.py lines 179-180). -/
def addDerived (s : Stat) : Stat :=
  let cns := s.words + s.punctuations + s.other_chars
  { s with chars_no_spaces := cns, chars_with_spaces := cns + s.whitespaces }

/-- Per-file statistics (the body of the `for i in path_list` loop of
`statistics`, src/mdutils.py lines 129-180): scan, end-of-file adjustment,
derived totals.  `none` models the `IndexError` on `_goups[-1]` when the
file is empty. -/
def statFile (raw : String) : Option Stat :=
  match lastRunNl (tokenize raw.toList) with
  | none => none
  | some lf => some (addDerived (adjustEof lf (scanStat (tokenize raw.toList))))

/-- Number of linefeeds in the final `(\s*\n)+` unit, characterised on the
document text: when the document ends in a newline this is the linefeed
count of its maximal whitespace suffix, and otherwise the last match is an
ordinary single-character one whose `(\s*\n)` group is empty. -/
def eofNewlines (cs : List Char) : Nat :=
  if cs.getLast? = some '\n' then countNl (cs.reverse.takeWhile isSpaceChar)
  else 0

example : statFile "" = none := by decide
example : statFile "a\n \n" = some ⟨1, 1, 2, 1, 0, 0, 0, 0, 3, 0, 1, 4⟩ := by decide
example : statFile "a好\n\nb" = some ⟨2, 2, 3, 3, 1, 0, 0, 0, 2, 0, 3, 5⟩ := by decide
example : statFile "ab\n" = some ⟨1, 1, 1, 2, 0, 0, 0, 0, 1, 0, 2, 3⟩ := by decide

/-! ## The reformatting pipeline

`__formatfunc_default` (src/mdutils.py lines 38-62) is a chain of
`re.sub` calls over the whole document.  Each substitution below is
transcribed as a left-to-right scan; in every regex of the pipeline a
match consumes a nonempty prefix, the scan resumes right after the
consumed part (lookarounds are not consumed), and lookbehinds inspect the
original characters of the string being scanned, matching `re.sub`
semantics. -/

/-- The opening curly double quote U+201C. -/
def lqChar : Char := '“'

/-- The closing curly double quote U+201D. -/
def rqChar : Char := '”'

/-- The backtick character U+0060. -/
def btChar : Char := Char.ofNat 96

/-- `raw.strip()`: remove leading and trailing whitespace. -/
def pyStrip (cs : List Char) : List Char :=
  ((cs.dropWhile isSpaceChar).reverse.dropWhile isSpaceChar).reverse

/-- Replacement text for one maximal run of `run` linefeeds under
`re.sub(r"\n{3,}", "\n\n", ...)`: runs of three or more collapse to two,
shorter runs are kept. -/
def emitNlRun (run : Nat) : List Char :=
  if 3 ≤ run then ['\n', '\n'] else List.replicate run '\n'

def collapseNlAux (run : Nat) : List Char → List Char
  | [] => emitNlRun run
  | c :: rest =>
    if c = '\n' then collapseNlAux (run + 1) rest
    else emitNlRun run ++ c :: collapseNlAux 0 rest

/-- `re.sub(r"\n{3,}", "\n\n", ...)` (src/mdutils.py line 42). -/
def collapseNl (cs : List Char) : List Char := collapseNlAux 0 cs

/-- After the first `]` of the list, is there a following character other
than `(`?  This is the `[^\]]*\][^(]` tail of the lookahead on line 46:
`[^\]]*` cannot cross a `]`, so only the first `]` can be the one
matched. -/
def afterFirstRB : List Char → Bool
  | [] => false
  | ']' :: [] => false
  | ']' :: d :: _ => decide (d ≠ '(')
  | _ :: rest => afterFirstRB rest

/-- The lookahead `(?=[^\s\[\]][^\]]*\][^(])` applied to the characters
following a `[`. -/
def look3 : List Char → Bool
  | [] => false
  | c0 :: r =>
    !(isSpaceChar c0) && decide (c0 ≠ '[') && decide (c0 ≠ ']') && afterFirstRB r

/-- `re.sub(r"\[(?=[^\s\[\]][^\]]*\][^(])", "[ ", ...)`
(src/mdutils.py line 46): insert a space after a `[` opening a
bracket-only construct. -/
def sub3 : List Char → List Char
  | [] => []
  | c :: rest =>
    if c = '[' ∧ look3 rest then '[' :: ' ' :: sub3 rest
    else c :: sub3 rest

/-- The lookbehind `(?<=[^\s\]\[])` of line 47, applied to the previous
original character (none at the start of the string). -/
def lookbehind4 : Option Char → Bool
  | none => false
  | some d => !(isSpaceChar d) && decide (d ≠ ']') && decide (d ≠ '[')

/-- The negative lookahead `(?!\()` of line 47. -/
def lookahead4 : List Char → Bool
  | '(' :: _ => false
  | _ => true

/-- `re.sub(r"(?<=[^\s\]\[])\](?!\()", " ]", ...)` (src/mdutils.py
line 47): insert a space before a closing `]` that is not part of a
markdown link. -/
def sub4 (prev : Option Char) : List Char → List Char
  | [] => []
  | c :: rest =>
    if c = ']' ∧ lookbehind4 prev ∧ lookahead4 rest then
      ' ' :: ']' :: sub4 (some ']') rest
    else c :: sub4 (some c) rest

/-- `re.sub(r" +\n", "\n", ...)` (src/mdutils.py line 52): drop maximal
space runs standing directly before a linefeed.  `pend` counts the spaces
of the run currently buffered. -/
def sub5Aux (pend : Nat) : List Char → List Char
  | [] => List.replicate pend ' '
  | c :: rest =>
    if c = ' ' then sub5Aux (pend + 1) rest
    else if c = '\n' then '\n' :: sub5Aux 0 rest
    else List.replicate pend ' ' ++ c :: sub5Aux 0 rest

def sub5 (cs : List Char) : List Char := sub5Aux 0 cs

/-- `re.sub(r"(?<=\w)(“| {2,}“)", " “", ...)` (src/mdutils.py line 55).
`prevWord` records whether the original character before the buffered
space run (`pend` spaces) is a `\w` character; the first alternative fires
with no buffered spaces, the second with at least two, and with exactly
one buffered space neither alternative can match (the quote's own
lookbehind sees the space). -/
def sub6Aux (prevWord : Bool) (pend : Nat) : List Char → List Char
  | [] => List.replicate pend ' '
  | c :: rest =>
    if c = ' ' then sub6Aux prevWord (pend + 1) rest
    else if c = lqChar then
      if prevWord ∧ (pend = 0 ∨ 2 ≤ pend) then
        ' ' :: lqChar :: sub6Aux false 0 rest
      else List.replicate pend ' ' ++ lqChar :: sub6Aux false 0 rest
    else List.replicate pend ' ' ++ c :: sub6Aux (isWordChar c) 0 rest

/-- `re.sub(r"(”|” {2,})(?=\w)", "” ", ...)` (src/mdutils.py line 56).
`pend = some k` records a pending `”` followed by `k` buffered spaces; the
decision is made on the first non-space character.  With `k = 0` the first
alternative fires, with `k ≥ 2` the second fires collapsing the spaces,
with `k = 1` neither can match and the text is left as is. -/
def sub7Aux (pend : Option Nat) : List Char → List Char
  | [] => match pend with
    | none => []
    | some k => rqChar :: List.replicate k ' '
  | c :: rest =>
    match pend with
    | none =>
      if c = rqChar then sub7Aux (some 0) rest
      else c :: sub7Aux none rest
    | some k =>
      if c = ' ' then sub7Aux (some (k + 1)) rest
      else if isWordChar c then
        if k = 0 ∨ 2 ≤ k then rqChar :: ' ' :: c :: sub7Aux none rest
        else rqChar :: List.replicate k ' ' ++ c :: sub7Aux none rest
      else if c = rqChar then
        rqChar :: List.replicate k ' ' ++ sub7Aux (some 0) rest
      else rqChar :: List.replicate k ' ' ++ c :: sub7Aux none rest

/-- After a backtick: is there another backtick before the next linefeed?
This is `.*` + backtick of the `re.search` pattern on line 58; `.` does
not match a linefeed since `re.DOTALL` is commented out (line 141 shows
the same choice for the statistics regex). -/
def btBeforeNl : List Char → Bool
  | [] => false
  | c :: r =>
    if c = btChar then true
    else if c = '\n' then false
    else btBeforeNl r

/-- Models `re.search` of backtick `.*` backtick on the raw text
(src/mdutils.py line 58): two backticks with no linefeed in between. -/
def searchSpan : List Char → Bool
  | [] => false
  | c :: r =>
    if c = btChar ∧ btBeforeNl r then true
    else searchSpan r

structure FormatResult where
  output : String
  questionable : Bool
deriving DecidableEq

/-- `__formatfunc_default` (src/mdutils.py lines 38-62). -/
def formatfuncDefault (raw : String) : FormatResult :=
  let t0 := pyStrip raw.toList ++ ['\n']
  let t1 := collapseNl t0
  let t2 := sub3 t1
  let t3 := sub4 none t2
  let t4 := sub5 t3
  let t5 := sub6Aux false 0 t4
  let t6 := sub7Aux none t5
  { output := String.mk t6, questionable := searchSpan raw.toList }

example : formatfuncDefault "[ok]" = ⟨"[ ok ]\n", false⟩ := by decide
example : formatfuncDefault "[ok](http://x)" = ⟨"[ok](http://x)\n", false⟩ := by decide
example : formatfuncDefault "a\n\n\nb" = ⟨"a\n\nb\n", false⟩ := by decide
example : (formatfuncDefault "a\n \n \nb").output = "a\n\n\nb\n" := by decide
example : (formatfuncDefault "a\n\n\nb\n").output = "a\n\nb\n" := by decide
example : (formatfuncDefault "x“y”z").output = "x “y” z\n" := by decide
example : (formatfuncDefault "`a`").questionable = true := by decide
example : (formatfuncDefault "`a\nb`").questionable = false := by decide

/-! ## The file selector

`iterdir` (src/mdutils.py lines 12-29) walks an explicit stack of paths.
The filesystem is modelled as a tree of files and directories; a path's
name carries its extension. -/

inductive FSEntry where
  | file (name : String)
  | dir (name : String) (children : List FSEntry)

theorem sizeOf_fsList_append (l1 l2 : List FSEntry) :
    sizeOf (l1 ++ l2) + 1 = sizeOf l1 + sizeOf l2 := by
  induction l1 with
  | nil => simp; omega
  | cons a t ih => simp only [List.cons_append, List.cons.sizeOf_spec]; omega

theorem sizeOf_fsList_reverse (l : List FSEntry) :
    sizeOf l.reverse = sizeOf l := by
  induction l with
  | nil => rfl
  | cons a t ih =>
    have h := sizeOf_fsList_append t.reverse [a]
    simp only [List.reverse_cons, List.cons.sizeOf_spec, List.nil.sizeOf_spec] at h ⊢
    omega

/-- `pathlib.PurePath.suffix`: the extension of the final component, i.e.
`name[i:]` for `i` the index of the last dot when `0 < i < len(name) - 1`,
else the empty string. -/
def pathSuffix (name : String) : String :=
  let cs := name.toList
  match cs.reverse.findIdx? (fun c => c = '.') with
  | none => ""
  | some j =>
    let i := cs.length - 1 - j
    if 0 < i ∧ i < cs.length - 1 then String.mk (cs.drop i) else ""

/-- `str.lower`, restricted to the ASCII case mapping. -/
def strLower (s : String) : String := String.mk (s.toList.map Char.toLower)

/-- `str.lstrip(".")`: remove leading dots. -/
def lstripDots (s : String) : String :=
  String.mk (s.toList.dropWhile (fun c => c = '.'))

/-- The suffix test of src/mdutils.py lines 24-25:
`_suffix in suffixes or _suffix.lstrip(".") in suffixes`. -/
def suffixMatch (sfx : List String) (name : String) : Bool :=
  let s := strLower (pathSuffix name)
  sfx.contains s || sfx.contains (lstripDots s)

/-- The `while stack` loop of `iterdir` (src/mdutils.py lines 21-29).  The
stack is kept top-first, so `stack.pop()` is the head and
`stack.extend(children)` pushes the children reversed; `result` collects
matching files in pop order.  Note the guard on line 27: a directory's
children are pushed only when `rcv` is true — also for the root. -/
def iterdirGo (sfx : List String) (rcv : Bool) :
    List FSEntry → List String → List String
  | [], result => result
  | .file n :: rest, result =>
    if suffixMatch sfx n then iterdirGo sfx rcv rest (result ++ [n])
    else iterdirGo sfx rcv rest result
  | .dir _ children :: rest, result =>
    if rcv then iterdirGo sfx rcv (children.reverse ++ rest) result
    else iterdirGo sfx rcv rest result
termination_by stack _result => sizeOf stack
decreasing_by
  all_goals simp only [List.cons.sizeOf_spec, FSEntry.dir.sizeOf_spec]
  · omega
  · omega
  · have h := sizeOf_fsList_append children.reverse rest
    have h2 := sizeOf_fsList_reverse children
    omega
  · omega

/-- `iterdir` (src/mdutils.py lines 12-29): default suffix set `(".md",)`
when none is supplied (`[]` models both `None` and an empty container). -/
def iterdir (root : FSEntry) (suffixes : List String) (recursive : Bool) :
    List String :=
  let sfx := if suffixes.isEmpty then [".md"] else suffixes
  iterdirGo sfx recursive [root] []

/-! ## I/O traces of `format` and `statistics`

The two drivers are modelled as functions from the selected files (name
paired with content) to the list of I/O events they perform, in program
order.  This makes the temporal claims about backup ordering and
configuration-error timing statable. -/

inductive FEvent where
  | readFile (name : String)
  | writeFile (name : String) (content : String)
  | warn (name : String)
deriving DecidableEq

/-- `path_.stem + "_raw" + path_.suffix` (src/mdutils.py lines 78-80): the
sibling backup name, in the same directory. -/
def copyName (name : String) : String :=
  let sfx := pathSuffix name
  let stem := String.mk (name.toList.take (name.toList.length - sfx.toList.length))
  stem ++ "_raw" ++ sfx

/-- The per-file body of `format` (src/mdutils.py lines 71-83): read the
file, overwrite it with the normalized text, and — only if the result is
questionable — write the sibling backup with the original text and print
the warning. -/
def formatFileTrace (name content : String) : List FEvent :=
  let r := formatfuncDefault content
  [FEvent.readFile name, FEvent.writeFile name r.output] ++
    (if r.questionable then
      [FEvent.writeFile (copyName name) content, FEvent.warn name]
    else [])

/-- `format` over the selected files, in order. -/
def formatRun (files : List (String × String)) : List FEvent :=
  (files.map (fun f => formatFileTrace f.1 f.2)).foldr (· ++ ·) []

inductive SEvent where
  | readFile (name : String)
  | openOut (target : String) (mode : String)
  | printOut
deriving DecidableEq

/-- The redirect modes accepted by `statistics`' report-writing `open`
(src/mdutils.py lines 194-196): the CLI documents `'w'` and `'a'` and any
other value used here makes `open` raise (`"raise exception elsewise"`,
line 244).  The model rejects every other mode at the open event. -/
def validRedirectMode (m : String) : Bool := m = "w" || m = "a"

/-- The input phase of `statistics` (src/mdutils.py lines 124-181): each
file (taken in sorted order, so the list argument stands for the already
sorted selection) is opened and read, then classified with `statFile`.
Returns the I/O events performed and whether the phase completed (an
empty file raises `IndexError` and aborts the run at that point). -/
def statsProcess : List (String × String) → List SEvent × Bool
  | [] => ([], true)
  | (n, content) :: rest =>
    match statFile content with
    | none => ([SEvent.readFile n], false)
    | some _ => (SEvent.readFile n :: (statsProcess rest).1, (statsProcess rest).2)

/-- `statistics` (src/mdutils.py lines 108-199) as an I/O trace: all input
files are read first; only afterwards is the report either printed or
written to the redirect target, and the redirect mode is first consulted
(and an invalid one first rejected) at that final `open`
(src/mdutils.py lines 194-196).  The boolean is `false` when the run ends
in an exception. -/
def statisticsRun (files : List (String × String))
    (redirect : Option (String × String)) : List SEvent × Bool :=
  let p := statsProcess files
  if p.2 = false then p
  else
    match redirect with
    | none => (p.1 ++ [SEvent.printOut], true)
    | some (target, mode) =>
      (p.1 ++ [SEvent.openOut target mode], validRedirectMode mode)

example : iterdir (.dir "d" [.file "a.md"]) [] false = [] := by
  simp [iterdir, iterdirGo]
example : iterdir (.dir "d" [.file "a.md"]) [] true = ["a.md"] := by
  simp [iterdir, iterdirGo, suffixMatch, pathSuffix, strLower, lstripDots]
example : copyName "a.md" = "a_raw.md" := by decide
example : formatFileTrace "a.md" "`x`" =
    [FEvent.readFile "a.md", FEvent.writeFile "a.md" "`x`\n",
     FEvent.writeFile "a_raw.md" "`x`", FEvent.warn "a.md"] := by decide
example : statisticsRun [("a.md", "hi")] (some ("out.txt", "q")) =
    ([SEvent.readFile "a.md", SEvent.openOut "out.txt" "q"], false) := by decide

/-! ## Helper lemmas about the scan -/

/-- Number of characters a token consumed from the input. -/
def charge : Tok → Nat
  | .nlRun r => r.length
  | _ => 1

/-- The four per-character categories: each character of the document
increments exactly one of `words`, `punctuations`, `whitespaces` and
`other_chars` (`CJK`, `Hiragana` and `Katakana` are sub-counts inside
`words`; the paragraph/line counters track structure, not characters). -/
def sumFour (s : Stat) : Nat :=
  s.words + s.punctuations + s.whitespaces + s.other_chars

theorem sumFour_tokStat (t : Tok) (s : Stat) :
    sumFour (tokStat t s) = sumFour s + charge t := by
  obtain ⟨p, nb, ln, w, cj, hi, ka, pu, ws, oc, d1, d2⟩ := s
  cases t <;> simp only [tokStat, charge, sumFour] <;>
    first
      | omega
      | (split <;> simp only [sumFour] <;> omega)

theorem sumFour_scanStatAux (ts : List Tok) :
    ∀ s : Stat, sumFour (scanStatAux s ts) = sumFour s + (ts.map charge).sum := by
  induction ts with
  | nil => intro s; simp [scanStatAux]
  | cons t ts ih =>
    intro s
    simp only [scanStatAux, List.map_cons, List.sum_cons]
    rw [ih, sumFour_tokStat]
    omega

theorem splitLastNl_eq_append {w a b : List Char} (h : splitLastNl w = some (a, b)) :
    w = a ++ b := by
  unfold splitLastNl at h
  split at h
  · exact absurd h (by simp)
  · have ha : a = (w.reverse.dropWhile (fun c => !(c = '\n'))).reverse := by
      have := congrArg (fun o => Option.map Prod.fst o) h
      simpa using this.symm
    have hb : b = (w.reverse.takeWhile (fun c => !(c = '\n'))).reverse := by
      have := congrArg (fun o => Option.map Prod.snd o) h
      simpa using this.symm
    rw [ha, hb, ← List.reverse_append, List.takeWhile_append_dropWhile,
      List.reverse_reverse]

theorem chargeSum_map_space (l : List Char) :
    (((l.map Tok.space).map charge)).sum = l.length := by
  induction l with
  | nil => rfl
  | cons c t ih => simp only [List.map_cons, List.sum_cons, charge, ih, List.length_cons]; omega

theorem charge_classifyChar (c : Char) : charge (classifyChar c) = 1 := by
  unfold classifyChar
  split_ifs <;> rfl

theorem chargeSum_flushWs (pend : List Char) :
    (((flushWs pend).map charge)).sum = pend.length := by
  unfold flushWs
  cases h : splitLastNl pend with
  | none => exact chargeSum_map_space pend
  | some ab =>
    obtain ⟨a, b⟩ := ab
    have hw := splitLastNl_eq_append h
    simp only [List.map_cons, List.sum_cons, charge, chargeSum_map_space, hw,
      List.length_append]

theorem chargeSum_tokenizeAux (cs : List Char) :
    ∀ pend : List Char,
      ((tokenizeAux pend cs).map charge).sum = pend.length + cs.length := by
  induction cs with
  | nil => intro pend; simpa [tokenizeAux] using chargeSum_flushWs pend
  | cons c rest ih =>
    intro pend
    by_cases hc : isSpaceChar c
    · simp only [tokenizeAux, hc, if_pos]
      rw [ih (pend ++ [c])]
      simp only [List.length_append, List.length_cons, List.length_nil]
      omega
    · simp only [tokenizeAux, hc, if_neg, Bool.false_eq_true, not_false_iff,
        List.map_append, List.sum_append, List.map_cons, List.sum_cons,
        chargeSum_flushWs, charge_classifyChar]
      rw [ih []]
      simp only [List.length_nil, List.length_cons]
      omega

/-- Recogniser for the catch-all token. -/
def isOtherTok : Tok → Bool
  | .other _ => true
  | _ => false

theorem flushWs_not_other (pend : List Char) :
    ∀ t ∈ flushWs pend, isOtherTok t = false := by
  intro t ht
  unfold flushWs at ht
  cases h : splitLastNl pend with
  | none =>
    rw [h] at ht
    obtain ⟨c, _, rfl⟩ := List.mem_map.mp ht
    rfl
  | some ab =>
    obtain ⟨a, b⟩ := ab
    rw [h] at ht
    rcases List.mem_cons.mp ht with rfl | hm
    · rfl
    · obtain ⟨c, _, rfl⟩ := List.mem_map.mp hm
      rfl

theorem classifyChar_not_other (c : Char) (hc : isSpaceChar c = false) :
    isOtherTok (classifyChar c) = false := by
  unfold classifyChar
  split_ifs <;> rfl

theorem tokenizeAux_not_other (cs : List Char) :
    ∀ pend t, t ∈ tokenizeAux pend cs → isOtherTok t = false := by
  induction cs with
  | nil => intro pend t ht; exact flushWs_not_other pend t ht
  | cons c rest ih =>
    intro pend t ht
    by_cases hc : isSpaceChar c
    · rw [show tokenizeAux pend (c :: rest) = tokenizeAux (pend ++ [c]) rest by
        simp [tokenizeAux, hc]] at ht
      exact ih (pend ++ [c]) t ht
    · rw [show tokenizeAux pend (c :: rest)
          = flushWs pend ++ (classifyChar c :: tokenizeAux [] rest) by
        simp [tokenizeAux, hc]] at ht
      rcases List.mem_append.mp ht with hm | hm
      · exact flushWs_not_other pend t hm
      · rcases List.mem_cons.mp hm with rfl | hm2
        · exact classifyChar_not_other c (by simpa using hc)
        · exact ih [] t hm2

theorem tokStat_other (t : Tok) (s : Stat) (h : isOtherTok t = false) :
    (tokStat t s).other_chars = s.other_chars := by
  obtain ⟨p, nb, ln, w, cj, hi, ka, pu, ws, oc, d1, d2⟩ := s
  cases t <;> simp only [tokStat] <;>
    first
      | rfl
      | (split <;> rfl)
      | exact absurd h (by simp [isOtherTok])

theorem scanStatAux_other (ts : List Tok) (h : ∀ t ∈ ts, isOtherTok t = false) :
    ∀ s : Stat, (scanStatAux s ts).other_chars = s.other_chars := by
  induction ts with
  | nil => intro s; rfl
  | cons t ts ih =>
    intro s
    have ht := h t (List.mem_cons_self t ts)
    have hrest : ∀ u ∈ ts, isOtherTok u = false := fun u hu =>
      h u (List.mem_cons_of_mem t hu)
    simp only [scanStatAux]
    rw [ih hrest, tokStat_other t s ht]

/-! Field bookkeeping for the end-of-file adjustment and the derived
totals: neither touches the per-character category counters. -/

theorem adjustEof_words (lf : Nat) (s : Stat) : (adjustEof lf s).words = s.words := by
  obtain ⟨p, nb, ln, w, cj, hi, ka, pu, ws, oc, d1, d2⟩ := s
  unfold adjustEof; split_ifs <;> rfl

theorem adjustEof_punctuations (lf : Nat) (s : Stat) :
    (adjustEof lf s).punctuations = s.punctuations := by
  obtain ⟨p, nb, ln, w, cj, hi, ka, pu, ws, oc, d1, d2⟩ := s
  unfold adjustEof; split_ifs <;> rfl

theorem adjustEof_whitespaces (lf : Nat) (s : Stat) :
    (adjustEof lf s).whitespaces = s.whitespaces := by
  obtain ⟨p, nb, ln, w, cj, hi, ka, pu, ws, oc, d1, d2⟩ := s
  unfold adjustEof; split_ifs <;> rfl

theorem adjustEof_other_chars (lf : Nat) (s : Stat) :
    (adjustEof lf s).other_chars = s.other_chars := by
  obtain ⟨p, nb, ln, w, cj, hi, ka, pu, ws, oc, d1, d2⟩ := s
  unfold adjustEof; split_ifs <;> rfl

theorem adjustEof_paragraphs (lf : Nat) (s : Stat) :
    (adjustEof lf s).paragraphs = s.paragraphs + (if lf ≤ 1 then 1 else 0) := by
  obtain ⟨p, nb, ln, w, cj, hi, ka, pu, ws, oc, d1, d2⟩ := s
  unfold adjustEof
  split_ifs <;> simp <;> omega

theorem adjustEof_non_blank_lines (lf : Nat) (s : Stat) :
    (adjustEof lf s).non_blank_lines
      = s.non_blank_lines + (if lf = 0 then 1 else 0) := by
  obtain ⟨p, nb, ln, w, cj, hi, ka, pu, ws, oc, d1, d2⟩ := s
  unfold adjustEof
  split_ifs <;> simp

theorem adjustEof_lines (lf : Nat) (s : Stat) :
    (adjustEof lf s).lines = s.lines + (if lf = 0 then 1 else 0) := by
  obtain ⟨p, nb, ln, w, cj, hi, ka, pu, ws, oc, d1, d2⟩ := s
  unfold adjustEof
  split_ifs <;> simp

theorem addDerived_projections (s : Stat) :
    (addDerived s).paragraphs = s.paragraphs ∧
    (addDerived s).non_blank_lines = s.non_blank_lines ∧
    (addDerived s).lines = s.lines ∧
    (addDerived s).words = s.words ∧
    (addDerived s).punctuations = s.punctuations ∧
    (addDerived s).whitespaces = s.whitespaces ∧
    (addDerived s).other_chars = s.other_chars := by
  obtain ⟨p, nb, ln, w, cj, hi, ka, pu, ws, oc, d1, d2⟩ := s
  exact ⟨rfl, rfl, rfl, rfl, rfl, rfl, rfl⟩

/-! ## Relating the last token to the document text

The key fact behind the end-of-file behaviour: the linefeed count of the
scan's last match (`_goups[-1][7].count("\n")`) equals `eofNewlines` of
the document, i.e. the linefeed count of the document's maximal trailing
whitespace run when the document ends in a newline, and `0` otherwise. -/

theorem takeWhile_all {p : Char → Bool} :
    ∀ {l : List Char}, (∀ x ∈ l, p x = true) → l.takeWhile p = l := by
  intro l
  induction l with
  | nil => intro _; rfl
  | cons a t ih =>
    intro h
    rw [List.takeWhile_cons, if_pos (h a (List.mem_cons_self a t)),
      ih (fun x hx => h x (List.mem_cons_of_mem a hx))]

theorem takeWhile_append_stop {p : Char → Bool} {y : Char} (hy : p y = false)
    (xs zs : List Char) : (xs ++ y :: zs).takeWhile p = xs.takeWhile p := by
  induction xs with
  | nil => simp [List.takeWhile_cons, hy]
  | cons a t ih =>
    simp only [List.cons_append, List.takeWhile_cons]
    split <;> simp [ih]

theorem flushWs_ne_nil {pend : List Char} (h : pend ≠ []) : flushWs pend ≠ [] := by
  unfold flushWs
  cases hs : splitLastNl pend with
  | none =>
    intro hh
    exact h (List.map_eq_nil_iff.mp hh)
  | some ab =>
    obtain ⟨a, b⟩ := ab
    simp

theorem tokenizeAux_ne_nil (cs : List Char) :
    ∀ pend : List Char, pend ++ cs ≠ [] → tokenizeAux pend cs ≠ [] := by
  induction cs with
  | nil =>
    intro pend h
    rw [List.append_nil] at h
    exact flushWs_ne_nil h
  | cons c rest ih =>
    intro pend h
    by_cases hc : isSpaceChar c = true
    · rw [show tokenizeAux pend (c :: rest) = tokenizeAux (pend ++ [c]) rest by
        simp [tokenizeAux, hc]]
      exact ih (pend ++ [c]) (by simp)
    · rw [show tokenizeAux pend (c :: rest)
          = flushWs pend ++ (classifyChar c :: tokenizeAux [] rest) by
        simp [tokenizeAux, hc]]
      simp

theorem runNl_classifyChar (c : Char) : runNl (classifyChar c) = 0 := by
  unfold classifyChar
  split_ifs <;> rfl

theorem eofNewlines_append_nonspace {c : Char} (hc : isSpaceChar c = false)
    {rest : List Char} (hr : rest ≠ []) (pend : List Char) :
    eofNewlines (pend ++ c :: rest) = eofNewlines rest := by
  have hlast : (pend ++ c :: rest).getLast? = rest.getLast? := by
    rw [List.getLast?_append_of_ne_nil pend (by simp),
      show c :: rest = [c] ++ rest from rfl,
      List.getLast?_append_of_ne_nil [c] hr]
  have hrev : (pend ++ c :: rest).reverse = rest.reverse ++ c :: pend.reverse := by
    simp [List.reverse_append]
  unfold eofNewlines
  rw [hlast, hrev, takeWhile_append_stop hc]

theorem lastRunNl_tokenizeAux (cs : List Char) :
    ∀ pend : List Char, (∀ x ∈ pend, isSpaceChar x = true) → pend ++ cs ≠ [] →
      lastRunNl (tokenizeAux pend cs) = some (eofNewlines (pend ++ cs)) := by
  induction cs with
  | nil =>
    intro pend hws hne
    rw [List.append_nil] at hne ⊢
    cases hd : pend.getLast? with
    | none => exact absurd (List.getLast?_eq_none_iff.mp hd) hne
    | some d =>
      have hrevh : pend.reverse.head? = some d := by
        rw [List.head?_reverse]; exact hd
      obtain ⟨t, ht⟩ : ∃ t, pend.reverse = d :: t := by
        cases hrl : pend.reverse with
        | nil => rw [hrl] at hrevh; exact absurd hrevh (by simp)
        | cons x xs =>
          rw [hrl] at hrevh
          simp only [List.head?_cons, Option.some.injEq] at hrevh
          exact ⟨xs, by rw [hrevh]⟩
      have hpend : pend = (d :: t).reverse := by
        rw [← ht, List.reverse_reverse]
      by_cases hdn : d = '\n'
      · subst hdn
        have hsplit : splitLastNl pend = some (pend, []) := by
          unfold splitLastNl
          rw [ht]
          simp only [List.dropWhile_cons, List.takeWhile_cons, decide_True,
            Bool.not_true, Bool.false_eq_true, if_false, List.length_cons,
            List.reverse_nil]
          rw [if_neg (by omega)]
          rw [← ht, List.reverse_reverse]
        rw [show tokenizeAux pend [] = flushWs pend from rfl]
        have hfw : flushWs pend = [Tok.nlRun pend] := by
          unfold flushWs
          rw [hsplit]
          rfl
        rw [hfw]
        have hrhs : eofNewlines pend = countNl pend := by
          unfold eofNewlines
          rw [if_pos hd,
            takeWhile_all (fun x hx => hws x (List.mem_reverse.mp hx))]
          unfold countNl
          rw [List.count_reverse]
        rw [hrhs]
        simp [lastRunNl, runNl]
      · have hrhs : eofNewlines pend = 0 := by
          unfold eofNewlines
          rw [if_neg (by rw [hd]; simp [hdn])]
        rw [hrhs, show tokenizeAux pend [] = flushWs pend from rfl]
        cases hs : splitLastNl pend with
        | none =>
          have hfw : flushWs pend = pend.map Tok.space := by
            unfold flushWs
            rw [hs]
          rw [hfw]
          unfold lastRunNl
          rw [List.getLast?_map, hd]
          simp [runNl]
        | some ab =>
          obtain ⟨a, b⟩ := ab
          have hfw : flushWs pend = Tok.nlRun a :: b.map Tok.space := by
            unfold flushWs
            rw [hs]
          rw [hfw]
          have hb : b ≠ [] := by
            unfold splitLastNl at hs
            split at hs
            · exact absurd hs (by simp)
            · have hbval : b = (pend.reverse.takeWhile (fun c => !(c = '\n'))).reverse := by
                have := congrArg (fun o => Option.map Prod.snd o) hs
                simpa using this.symm
              rw [hbval, ht, List.takeWhile_cons, if_pos (by simp [hdn])]
              simp
          unfold lastRunNl
          rw [show Tok.nlRun a :: b.map Tok.space
              = [Tok.nlRun a] ++ b.map Tok.space from rfl,
            List.getLast?_append_of_ne_nil _ (by simpa using hb),
            List.getLast?_map]
          cases hbl : b.getLast? with
          | none => exact absurd (List.getLast?_eq_none_iff.mp hbl) hb
          | some bb => simp [runNl]
  | cons c rest ih =>
    intro pend hws hne
    by_cases hc : isSpaceChar c = true
    · rw [show tokenizeAux pend (c :: rest) = tokenizeAux (pend ++ [c]) rest by
        simp [tokenizeAux, hc],
        show pend ++ c :: rest = (pend ++ [c]) ++ rest by simp]
      refine ih (pend ++ [c]) ?_ (by simp)
      intro x hx
      rcases List.mem_append.mp hx with h | h
      · exact hws x h
      · simp only [List.mem_singleton] at h
        rw [h]; exact hc
    · have hc' : isSpaceChar c = false := by simpa using hc
      have hcn : c ≠ '\n' := by
        intro hh
        rw [hh] at hc'
        exact absurd hc' (by decide)
      rw [show tokenizeAux pend (c :: rest)
          = flushWs pend ++ (classifyChar c :: tokenizeAux [] rest) by
        simp [tokenizeAux, hc]]
      by_cases hre : rest = []
      · subst hre
        rw [show tokenizeAux ([] : List Char) [] = [] from rfl]
        unfold lastRunNl
        rw [List.getLast?_concat]
        simp [runNl_classifyChar, eofNewlines, List.getLast?_concat, hcn]
      · have hT : tokenizeAux [] rest ≠ [] :=
          tokenizeAux_ne_nil rest [] (by simpa using hre)
        unfold lastRunNl
        rw [List.getLast?_append_of_ne_nil _
            (show classifyChar c :: tokenizeAux [] rest ≠ [] by simp),
          show classifyChar c :: tokenizeAux [] rest
            = [classifyChar c] ++ tokenizeAux [] rest from rfl,
          List.getLast?_append_of_ne_nil _ hT,
          eofNewlines_append_nonspace hc' hre pend]
        have := ih [] (by simp) (by simpa using hre)
        unfold lastRunNl at this
        simpa using this

/-- A nonempty string has a nonempty character list. -/
theorem toList_ne_nil {raw : String} (h : raw ≠ "") : raw.toList ≠ [] := by
  cases raw with
  | mk data =>
    intro hh
    simp only [String.toList] at hh
    exact h (by rw [hh])

/-- Closed form of `statFile` on nonempty input: the scan tally, adjusted
at end of file by the linefeed count of the trailing unit, plus the
derived totals. -/
theorem statFile_eq_some (raw : String) (h : raw.toList ≠ []) :
    statFile raw = some (addDerived (adjustEof (eofNewlines raw.toList)
      (scanStat (tokenize raw.toList)))) := by
  have hl := lastRunNl_tokenizeAux raw.toList [] (by simp) (by simpa using h)
  have hl' : lastRunNl (tokenize raw.toList) = some (eofNewlines raw.toList) := by
    simpa [tokenize] using hl
  unfold statFile
  rw [hl']

theorem chargeSum_tokenize (cs : List Char) :
    ((tokenize cs).map charge).sum = cs.length := by
  have := chargeSum_tokenizeAux cs []
  simpa [tokenize] using this

theorem sumFour_scanStat_tokenize (cs : List Char) :
    sumFour (scanStat (tokenize cs)) = cs.length := by
  unfold scanStat
  rw [sumFour_scanStatAux, chargeSum_tokenize]
  simp [sumFour, Stat.zero]

/-! ## Characterising the questionable-flag search -/

/-- Two backticks with no linefeed in between: what
`re.search` of backtick `.*` backtick actually detects, since `.` does not
match a linefeed. -/
def codeSpanSameLine (cs : List Char) : Prop :=
  ∃ pre mid post, cs = pre ++ btChar :: (mid ++ btChar :: post) ∧ '\n' ∉ mid

/-- The spec's wording of the questionable test — "a backtick, any
characters, a backtick" — with no restriction on the characters between
the backticks.  This definition follows the claim's words, to be compared
against the behaviour of the code. -/
def specCodeSpanAnyChars (cs : List Char) : Prop :=
  ∃ pre mid post, cs = pre ++ btChar :: (mid ++ btChar :: post)

theorem btChar_ne_nl : btChar ≠ '\n' := by decide

theorem btBeforeNl_iff (r : List Char) :
    btBeforeNl r = true ↔ ∃ m p, r = m ++ btChar :: p ∧ '\n' ∉ m := by
  induction r with
  | nil =>
    constructor
    · intro h; exact absurd h (by simp [btBeforeNl])
    · rintro ⟨m, p, hmp, -⟩; exact absurd hmp (by simp)
  | cons c r ih =>
    by_cases hbt : c = btChar
    · subst hbt
      constructor
      · intro _; exact ⟨[], r, rfl, by simp⟩
      · intro _; simp [btBeforeNl]
    · by_cases hnl : c = '\n'
      · subst hnl
        constructor
        · intro h
          rw [show btBeforeNl ('\n' :: r) = false by
            simp [btBeforeNl, fun hh => hbt hh]] at h
          exact absurd h (by simp)
        · rintro ⟨m, p, hmp, hnm⟩
          cases m with
          | nil =>
            simp only [List.nil_append, List.cons.injEq] at hmp
            exact absurd hmp.1 hbt
          | cons x m' =>
            simp only [List.cons_append, List.cons.injEq] at hmp
            have hmem : '\n' ∈ x :: m' := by
              rw [← hmp.1]
              exact List.mem_cons_self _ _
            exact absurd hmem hnm
      · rw [show btBeforeNl (c :: r) = btBeforeNl r by
          simp [btBeforeNl, hbt, hnl]]
        rw [ih]
        constructor
        · rintro ⟨m, p, hmp, hnm⟩
          exact ⟨c :: m, p, by simp [hmp],
            by simp [hnm]; exact fun hh => hnl hh.symm⟩
        · rintro ⟨m, p, hmp, hnm⟩
          cases m with
          | nil =>
            simp only [List.nil_append, List.cons.injEq] at hmp
            exact absurd hmp.1 hbt
          | cons x m' =>
            simp only [List.cons_append, List.cons.injEq] at hmp
            refine ⟨m', p, hmp.2, fun hh => hnm ?_⟩
            exact List.mem_cons_of_mem x hh

theorem searchSpan_iff (cs : List Char) :
    searchSpan cs = true ↔ codeSpanSameLine cs := by
  unfold codeSpanSameLine
  induction cs with
  | nil =>
    constructor
    · intro h; exact absurd h (by simp [searchSpan])
    · rintro ⟨pre, m, p, hmp, -⟩; exact absurd hmp (by simp)
  | cons c r ih =>
    by_cases hbt : c = btChar
    · subst hbt
      by_cases hb : btBeforeNl r = true
      · rw [show searchSpan (btChar :: r) = true by simp [searchSpan, hb]]
        obtain ⟨m, p, hmp, hnm⟩ := (btBeforeNl_iff r).mp hb
        exact ⟨fun _ => ⟨[], m, p, by simp [hmp], hnm⟩, fun _ => rfl⟩
      · rw [show searchSpan (btChar :: r) = searchSpan r by
          simp [searchSpan, hb]]
        rw [ih]
        constructor
        · rintro ⟨pre, m, p, hmp, hnm⟩
          exact ⟨btChar :: pre, m, p, by simp [hmp], hnm⟩
        · rintro ⟨pre, m, p, hmp, hnm⟩
          cases pre with
          | nil =>
            simp only [List.nil_append, List.cons.injEq] at hmp
            exact absurd ((btBeforeNl_iff r).mpr ⟨m, p, hmp.2, hnm⟩) hb
          | cons x pre' =>
            simp only [List.cons_append, List.cons.injEq] at hmp
            exact ⟨pre', m, p, hmp.2, hnm⟩
    · rw [show searchSpan (c :: r) = searchSpan r by
        simp [searchSpan, hbt]]
      rw [ih]
      constructor
      · rintro ⟨pre, m, p, hmp, hnm⟩
        exact ⟨c :: pre, m, p, by simp [hmp], hnm⟩
      · rintro ⟨pre, m, p, hmp, hnm⟩
        cases pre with
        | nil =>
          simp only [List.nil_append, List.cons.injEq] at hmp
          exact absurd hmp.1 hbt
        | cons x pre' =>
          simp only [List.cons_append, List.cons.injEq] at hmp
          exact ⟨pre', m, p, hmp.2, hnm⟩

/-- When every selected file is nonempty, the input phase of `statistics`
reads every file, in order, and completes. -/
theorem statsProcess_all_nonempty :
    ∀ files : List (String × String), (∀ f ∈ files, f.2 ≠ "") →
      statsProcess files = (files.map (fun f => SEvent.readFile f.1), true) := by
  intro files
  induction files with
  | nil => intro _; rfl
  | cons f rest ih =>
    intro h
    obtain ⟨n, content⟩ := f
    have hc : content ≠ "" := h (n, content) (List.mem_cons_self _ _)
    rw [show statsProcess ((n, content) :: rest)
        = (match statFile content with
           | none => ([SEvent.readFile n], false)
           | some _ =>
             (SEvent.readFile n :: (statsProcess rest).1, (statsProcess rest).2))
        from rfl,
      statFile_eq_some content (toList_ne_nil hc),
      ih (fun g hg => h g (List.mem_cons_of_mem _ hg))]
    simp

/-! ## The claims -/

/-- Claim C1, counterexample.  The document `"a\n \n"` ends in exactly one
newline character (its last character is a linefeed, the one before it a
space), yet the classifier adds no implicit trailing paragraph: the final
tally's `paragraphs` equals the scan tally's `paragraphs`, because the
end-of-file test looks at the linefeed count of the final `(\s*\n)+`
match, which here is the whole run `"\n \n"` with two linefeeds.  The
claim as stated demands one extra paragraph for this document. -/
theorem c1_counterexample :
    "a\n \n".toList.getLast? = some '\n' ∧
    "a\n \n".toList.dropLast.getLast? = some ' ' ∧
    (statFile "a\n \n").map Stat.paragraphs
      = some ((scanStat (tokenize "a\n \n".toList)).paragraphs) := by
  refine ⟨by decide, by decide, ?_⟩
  decide

/-- Claim C1, amended.  The end-of-file adjustment of the statistics
classifier is driven by the number of linefeeds in the document's final
`(\s*\n)+` unit — the maximal trailing whitespace run when the document
ends in a newline (`eofNewlines`) — rather than by the literal trailing
newline characters: a document not ending in a newline (count `0`) gains
one implicit paragraph, one non-blank line and one line; a final unit
with exactly one linefeed gains one implicit paragraph only; with two or
more linefeeds nothing is added. -/
theorem c1_eof_adjustment (raw : String) (h : raw.toList ≠ []) :
    ∃ st, statFile raw = some st ∧
      st.paragraphs = (scanStat (tokenize raw.toList)).paragraphs +
        (if eofNewlines raw.toList ≤ 1 then 1 else 0) ∧
      st.non_blank_lines = (scanStat (tokenize raw.toList)).non_blank_lines +
        (if eofNewlines raw.toList = 0 then 1 else 0) ∧
      st.lines = (scanStat (tokenize raw.toList)).lines +
        (if eofNewlines raw.toList = 0 then 1 else 0) := by
  refine ⟨_, statFile_eq_some raw h, ?_, ?_, ?_⟩
  · rw [(addDerived_projections _).1, adjustEof_paragraphs]
  · rw [(addDerived_projections _).2.1, adjustEof_non_blank_lines]
  · rw [(addDerived_projections _).2.2.1, adjustEof_lines]

/-- Witness for claim C1's amended theorem at the document `"ab\n"`. -/
theorem c1_eof_adjustment_witness :
    ∃ st, statFile "ab\n" = some st ∧
      st.paragraphs = (scanStat (tokenize "ab\n".toList)).paragraphs +
        (if eofNewlines "ab\n".toList ≤ 1 then 1 else 0) ∧
      st.non_blank_lines = (scanStat (tokenize "ab\n".toList)).non_blank_lines +
        (if eofNewlines "ab\n".toList = 0 then 1 else 0) ∧
      st.lines = (scanStat (tokenize "ab\n".toList)).lines +
        (if eofNewlines "ab\n".toList = 0 then 1 else 0) :=
  c1_eof_adjustment "ab\n" (by decide)

/-- Claim C2.  With recursion disabled and a directory as root, `iterdir`
returns nothing at all: the guard `_path.is_dir() and recursive`
(src/mdutils.py line 27) also applies to the root, so the directory's
immediate children are never inspected — here a matching child `"a.md"`
is not returned, while the same tree with recursion enabled does return
it.  The claim says the immediate children are inspected and matching
files returned. -/
theorem c2_nonrecursive_dir :
    iterdir (FSEntry.dir "d" [FSEntry.file "a.md"]) [] false = [] ∧
    iterdir (FSEntry.dir "d" [FSEntry.file "a.md"]) [] true = ["a.md"] := by
  constructor <;>
    simp [iterdir, iterdirGo, suffixMatch, pathSuffix, strLower, lstripDots]

/-- Claim C3, counterexample.  Running `statistics` over one nonempty file
with the invalid redirect mode `"q"` does fail, but the first I/O event of
the run is the read of the input file: the input file is opened and read
before the invalid mode is rejected, contradicting "rejected ... before
any input file is opened or read". -/
theorem c3_counterexample :
    statisticsRun [("a.md", "hello")] (some ("out.txt", "q"))
      = ([SEvent.readFile "a.md", SEvent.openOut "out.txt" "q"], false) ∧
    (statisticsRun [("a.md", "hello")] (some ("out.txt", "q"))).1.head?
      = some (SEvent.readFile "a.md") := by
  refine ⟨?_, by decide⟩
  decide

/-- Claim C3, amended.  An invalid redirect mode (neither `"w"` nor
`"a"`) is rejected only when the report file is opened, which happens
after every input file has been opened and read: on nonempty input files
the run's trace is exactly the reads of all input files followed by the
failing output-open event. -/
theorem c3_invalid_mode (files : List (String × String)) (target mode : String)
    (hfiles : ∀ f ∈ files, f.2 ≠ "") (hw : mode ≠ "w") (ha : mode ≠ "a") :
    statisticsRun files (some (target, mode))
      = (files.map (fun f => SEvent.readFile f.1)
          ++ [SEvent.openOut target mode], false) := by
  unfold statisticsRun
  rw [statsProcess_all_nonempty files hfiles]
  simp [validRedirectMode, hw, ha]

/-- Witness for claim C3's amended theorem: one file, mode `"q"`. -/
theorem c3_invalid_mode_witness :
    statisticsRun [("b.md", "hey")] (some ("out.txt", "q"))
      = ([("b.md", "hey")].map (fun f => SEvent.readFile f.1)
          ++ [SEvent.openOut "out.txt" "q"], false) :=
  c3_invalid_mode [("b.md", "hey")] "out.txt" "q"
    (by intro f hf; simp at hf; rw [hf]; decide) (by decide) (by decide)

/-- Claim C4, counterexample.  For a questionable file, `format`
(src/mdutils.py lines 75-82) overwrites the source first and writes the
`_raw` backup afterwards: in the trace of the file `"a.md"` with content
containing a code span, the overwrite event strictly precedes the backup
write event, contradicting "the backup write precedes the overwrite". -/
theorem c4_counterexample :
    formatFileTrace "a.md" "`x`" =
      [FEvent.readFile "a.md", FEvent.writeFile "a.md" "`x`\n",
       FEvent.writeFile "a_raw.md" "`x`", FEvent.warn "a.md"] ∧
    (formatFileTrace "a.md" "`x`").indexOf (FEvent.writeFile "a.md" "`x`\n")
      < (formatFileTrace "a.md" "`x`").indexOf
          (FEvent.writeFile "a_raw.md" "`x`") := by
  refine ⟨?_, by decide⟩
  decide

/-- Claim C4, amended.  For every file whose reformat result is flagged
questionable, the per-file step is: read, overwrite the source with the
normalized text, then write the original text to the sibling backup
`<stem>_raw<suffix>`, then emit the warning — the backup (still holding
the pre-normalization text) is written after the overwrite, not before. -/
theorem c4_backup_order (name content : String)
    (h : (formatfuncDefault content).questionable = true) :
    formatFileTrace name content =
      [FEvent.readFile name,
       FEvent.writeFile name (formatfuncDefault content).output,
       FEvent.writeFile (copyName name) content,
       FEvent.warn name] := by
  simp [formatFileTrace, h]

/-- Witness for claim C4's amended theorem at the file `"a.md"` with
content containing a code span. -/
theorem c4_backup_order_witness :
    formatFileTrace "a.md" "`x`" =
      [FEvent.readFile "a.md",
       FEvent.writeFile "a.md" (formatfuncDefault "`x`").output,
       FEvent.writeFile (copyName "a.md") "`x`",
       FEvent.warn "a.md"] :=
  c4_backup_order "a.md" "`x`" (by decide)

/-- Claim C5.  The reformatter is not idempotent on its text output: on
the document `"a\n \n \nb"` the first pass yields `"a\n\n\nb\n"` — the
trailing-space removal (pipeline step 4) runs after the blank-line
collapse (step 2) and creates a fresh run of three linefeeds, which the
code's own comment "replace multiple blank lines by one" says should not
survive — and a second pass collapses it to `"a\n\nb\n"`, so the two
outputs differ. -/
theorem c5_not_idempotent :
    (formatfuncDefault "a\n \n \nb").output = "a\n\n\nb\n" ∧
    (formatfuncDefault ((formatfuncDefault "a\n \n \nb").output)).output
      = "a\n\nb\n" ∧
    (formatfuncDefault ((formatfuncDefault "a\n \n \nb").output)).output
      ≠ (formatfuncDefault "a\n \n \nb").output := by
  refine ⟨by decide, by decide, ?_⟩
  decide

/-- Claim C6.  Bracket spacing: reformatting `"[ok]"` yields `"[ ok ]"`
followed by the enforced trailing newline, while `"[ok](http://x)"` is a
real markdown link and its bracket construct is left unchanged (only the
trailing newline is added). -/
theorem c6_bracket_spacing :
    (formatfuncDefault "[ok]").output = "[ ok ]\n" ∧
    (formatfuncDefault "[ok](http://x)").output = "[ok](http://x)\n" := by
  refine ⟨?_, by decide⟩
  decide

/-- Claim C7.  For every document on which the per-file statistics
succeed, the primary per-character categories sum to the document's
character count: `words + punctuations + whitespaces + other_chars` equals
the number of Unicode characters (the `CJK`/`Hiragana`/`Katakana`
counters are sub-counts inside `words`, and the paragraph/line counters
count structure, not characters, so each character increments exactly one
of the four primary categories). -/
theorem c7_classification_exhaustive (raw : String) (st : Stat)
    (h : statFile raw = some st) :
    st.words + st.punctuations + st.whitespaces + st.other_chars
      = raw.toList.length := by
  cases hl : lastRunNl (tokenize raw.toList) with
  | none =>
    unfold statFile at h
    rw [hl] at h
    exact absurd h (by simp)
  | some lf =>
    unfold statFile at h
    rw [hl] at h
    simp only [Option.some.injEq] at h
    rw [← h, (addDerived_projections _).2.2.2.1,
      (addDerived_projections _).2.2.2.2.1,
      (addDerived_projections _).2.2.2.2.2.1,
      (addDerived_projections _).2.2.2.2.2.2,
      adjustEof_words, adjustEof_punctuations, adjustEof_whitespaces,
      adjustEof_other_chars]
    have hs := sumFour_scanStat_tokenize raw.toList
    simpa [sumFour] using hs

/-- Witness for claim C7 at the document `"a好\n\nb"` (five characters). -/
theorem c7_classification_exhaustive_witness :
    statFile "a好\n\nb" = some ⟨2, 2, 3, 3, 1, 0, 0, 0, 2, 0, 3, 5⟩ ∧
    (⟨2, 2, 3, 3, 1, 0, 0, 0, 2, 0, 3, 5⟩ : Stat).words
      + (⟨2, 2, 3, 3, 1, 0, 0, 0, 2, 0, 3, 5⟩ : Stat).punctuations
      + (⟨2, 2, 3, 3, 1, 0, 0, 0, 2, 0, 3, 5⟩ : Stat).whitespaces
      + (⟨2, 2, 3, 3, 1, 0, 0, 0, 2, 0, 3, 5⟩ : Stat).other_chars
      = "a好\n\nb".toList.length :=
  ⟨by decide,
   c7_classification_exhaustive "a好\n\nb" ⟨2, 2, 3, 3, 1, 0, 0, 0, 2, 0, 3, 5⟩
     (by decide)⟩

/-- Claim C8, counterexample.  The document containing a backtick, the
characters `a`, a linefeed, `b`, and a backtick satisfies the claim's
condition — it contains "a backtick, any characters, a backtick" — yet
its reformat result is not flagged questionable, because the search
pattern's `.*` does not match a linefeed (`re.DOTALL` is not used). -/
theorem c8_counterexample :
    (formatfuncDefault "`a\nb`").questionable = false ∧
    specCodeSpanAnyChars "`a\nb`".toList := by
  refine ⟨by decide, ⟨[], ['a', '\n', 'b'], [], ?_⟩⟩
  decide

/-- Claim C8, amended.  The questionable flag of the reformat result is
true if and only if the original (pre-normalization) text contains two
backticks with no linefeed between them — an inline code span lying on a
single line; the flag is computed from the original text, not from the
normalized output. -/
theorem c8_questionable (raw : String) :
    (formatfuncDefault raw).questionable = true ↔ codeSpanSameLine raw.toList := by
  have hq : (formatfuncDefault raw).questionable = searchSpan raw.toList := rfl
  rw [hq, searchSpan_iff]

/-- Claim C9.  The per-file statistics computation is not total: on the
empty string the match list is empty and `_goups[-1]` raises `IndexError`
(modelled by `statFile "" = none`), while every nonempty document yields
a tally. -/
theorem c9_empty_input :
    statFile "" = none ∧
      ∀ raw : String, raw ≠ "" → (statFile raw).isSome = true := by
  refine ⟨by decide, ?_⟩
  intro raw h
  rw [statFile_eq_some raw (toList_ne_nil h)]
  rfl

/-- Witness for claim C9 at the one-character document `"x"`. -/
theorem c9_empty_input_witness :
    ("x" : String) ≠ "" ∧ (statFile "x").isSome = true :=
  ⟨by decide, c9_empty_input.2 "x" (by decide)⟩

/-- Claim C10.  The catch-all `(.)` alternative of the classifier regex is
unreachable — every character is matched by an earlier alternative (a
non-whitespace character by `\S` at the latest, a whitespace character by
the newline-run or `\s` alternatives) — so `other_chars` is `0` for every
document whose statistics succeed. -/
theorem c10_other_chars_zero (raw : String) (st : Stat)
    (h : statFile raw = some st) : st.other_chars = 0 := by
  cases hl : lastRunNl (tokenize raw.toList) with
  | none =>
    unfold statFile at h
    rw [hl] at h
    exact absurd h (by simp)
  | some lf =>
    unfold statFile at h
    rw [hl] at h
    simp only [Option.some.injEq] at h
    rw [← h, (addDerived_projections _).2.2.2.2.2.2, adjustEof_other_chars]
    unfold scanStat
    rw [scanStatAux_other (tokenize raw.toList)
      (fun t ht => tokenizeAux_not_other raw.toList [] t ht)]
    rfl

/-- Witness for claim C10 at the document `"x."`. -/
theorem c10_other_chars_zero_witness :
    statFile "x." = some ⟨1, 1, 1, 1, 0, 0, 0, 1, 0, 0, 2, 2⟩ ∧
    (⟨1, 1, 1, 1, 0, 0, 0, 1, 0, 0, 2, 2⟩ : Stat).other_chars = 0 :=
  ⟨by decide,
   c10_other_chars_zero "x." ⟨1, 1, 1, 1, 0, 0, 0, 1, 0, 0, 2, 2⟩ (by decide)⟩

end MdUtils
